import Mathlib

/-!
# GLB container unpacker — verification of the binary demultiplexer

Shallow embedding of the binary-container unpacking logic of
`src/loaders/src/glTF/glTFFileLoader.ts`:

* `unpackBinary`    — `_unpackBinaryAsync` (magic / version / length header)
* `unpackBinaryV1`  — `_unpackBinaryV1Async` (legacy single-content layout)
* `unpackBinaryV2`  — `_unpackBinaryV2Async` (chunked layout, loop `readAsync`)
* `parseVersion`    — `_parseVersion` (dotted version-string parser)

The byte source is a `List Nat` of byte values; integers are read
little-endian exactly as `DataView.getUint32(_, true)` does.  JSON parsing
(`JSON.parse`) is external to the demultiplexer and is modelled as the
identity on the extracted text: the `json` field holds the exact bytes the
code hands to the parser, which is all the checked claims compare.

The `DataReader` class itself (`dataReader.ts`) is not part of the sources,
only its caller is; its operations are modelled from the spec, see below.
-/

/-- Decode-failure kinds, one per `throw` site of the unpacker (the code
throws `Error` objects with messages; the constructor names follow the
spec's error table). `SourceReadError` stands for a failed byte fetch,
which in the in-memory byte sources of the code surfaces as a `RangeError`
from constructing an out-of-bounds `Uint8Array` view. -/
inductive GLBError where
  | BadMagic
  | LengthMismatch
  | UnsupportedVersion
  | UnexpectedContentFormat
  | FirstChunkNotJson
  | DuplicateJsonChunk
  | SourceReadError
deriving DecidableEq, Repr

/-- The `bin` view the unpacker returns: `start` is the absolute offset of
the view's first byte in the original byte source (the captured
`startByteOffset`), `byteLength` the advertised length.  The code's
`bin.readAsync(o, l)` forwards to `dataReader.buffer.readAsync(start + o, l)`. -/
structure BinView where
  start : Nat
  byteLength : Nat
deriving DecidableEq, Repr

/-- The `IGLTFLoaderData` result: the parsed JSON text (kept as the raw bytes handed to
`JSON.parse`) plus the optional binary view. -/
structure LoaderData where
  json : List Nat
  bin : Option BinView
deriving DecidableEq, Repr

/-- Modelled from the spec: the `ByteSource.readAsync(offset, length)`
capability of `dataReader.ts` (which is absent from the sources; only its
caller `glTFFileLoader.ts` is present).  Per the spec's ByteSource contract
it "may fail if the requested range is unavailable or out of bounds"; the
in-memory sources built by the code (`new Uint8Array(arrayBuffer, offset,
length)`) do fail on out-of-bounds ranges, which this models. -/
def readAsyncSource (src : List Nat) (off len : Nat) : Except GLBError (List Nat) :=
  if off + len ≤ src.length then .ok ((src.drop off).take len) else .error .SourceReadError

/-- The read capability of a returned `bin` view: offset `0` of the view is
byte `start` of the original source, exactly as the code's closure
`(byteOffset, byteLength) => dataReader.buffer.readAsync(startByteOffset + byteOffset, byteLength)`. -/
def BinView.readAsync (src : List Nat) (v : BinView) (off len : Nat) :
    Except GLBError (List Nat) :=
  readAsyncSource src (v.start + off) len

/-- Modelled from the spec: the synchronous `readUint32` of the streaming
reader — a little-endian `uint32` of the four bytes at offset `i`, as
`DataView.getUint32(i, true)` yields on materialized bytes.  Out-of-range
reads never occur on the executed paths (every field read is preceded by a
successful load). -/
def u32At (src : List Nat) (i : Nat) : Nat :=
  match src.drop i with
  | b0 :: b1 :: b2 :: b3 :: _ => b0 + 2 ^ 8 * b1 + 2 ^ 16 * b2 + 2 ^ 24 * b3
  | _ => 0

/-- Modelled from the spec: `readString(byteCount)` / `readUint8Array` of the
streaming reader — the `n` bytes at offset `off` of the source. -/
def readBytes (src : List Nat) (off n : Nat) : List Nat :=
  (src.drop off).take n

/-- The fixed GLB magic `0x46546C67` (`Binary.Magic` in the code). -/
def glbMagic : Nat := 0x46546C67

/-- The chunked layout's JSON chunk tag `0x4E4F534A` (`ChunkFormat.JSON`). -/
def jsonTag : Nat := 0x4E4F534A

/-- The chunked layout's BIN chunk tag `0x004E4942` (`ChunkFormat.BIN`). -/
def binTag : Nat := 0x004E4942

/-- Unpack results carry, besides the `LoaderData` or the error, the largest
byte extent requested from the byte source so far (`loadAsync(n)` at reader
offset `o` requests bytes up to `o + n`); failed requests count as issued. -/
abbrev UnpackResult := Except (GLBError × Nat) (LoaderData × Nat)

/-- The chunk sub-loop `readAsync` of `_unpackBinaryV2Async` (lines 866–895):
entered with the reader at a chunk header whose 8 bytes are already loaded.
Reads `chunkLength`/`chunkFormat`; a JSON tag throws, a BIN tag records the
view at the current offset and skips the payload, anything else just skips;
then if the reader is not at the end of the source it loads 8 more bytes
(failing like the code's out-of-range `Uint8Array` if they are not there)
and repeats. -/
def v2Loop (src : List Nat) (offset maxReq : Nat) (bin : Option BinView) :
    Except (GLBError × Nat) (Option BinView × Nat) :=
  if u32At src (offset + 4) = jsonTag then
    .error (.DuplicateJsonChunk, maxReq)
  else if offset + 8 + u32At src offset = src.length then
    .ok ((if u32At src (offset + 4) = binTag then
            some ⟨offset + 8, u32At src offset⟩ else bin), maxReq)
  else if h : offset + 8 + u32At src offset + 8 ≤ src.length then
    v2Loop src (offset + 8 + u32At src offset)
      (max maxReq (offset + 8 + u32At src offset + 8))
      (if u32At src (offset + 4) = binTag then
        some ⟨offset + 8, u32At src offset⟩ else bin)
  else
    .error (.SourceReadError, max maxReq (offset + 8 + u32At src offset + 8))
termination_by src.length - offset
decreasing_by omega

/-- Embedding of `_unpackBinaryV2Async` (lines 842–899), entered with the reader at byte
offset 12 and the first 20 bytes loaded.  Reads the first chunk header at
offsets 12/16; a non-JSON tag fails; if the JSON chunk ends exactly at the
source's end, loads it, parses and returns with `bin = none`; otherwise
loads the JSON text plus the next header in one request and runs `v2Loop`. -/
def unpackBinaryV2 (src : List Nat) (maxReq : Nat) : UnpackResult :=
  if u32At src 16 ≠ jsonTag then
    .error (.FirstChunkNotJson, maxReq)
  else if 20 + u32At src 12 = src.length then
    if 20 + u32At src 12 ≤ src.length then
      .ok (⟨readBytes src 20 (u32At src 12), none⟩, max maxReq (20 + u32At src 12))
    else
      .error (.SourceReadError, max maxReq (20 + u32At src 12))
  else if 20 + u32At src 12 + 8 ≤ src.length then
    match v2Loop src (20 + u32At src 12) (max maxReq (20 + u32At src 12 + 8)) none with
    | .ok (bin, m) => .ok (⟨readBytes src 20 (u32At src 12), bin⟩, m)
    | .error e => .error e
  else
    .error (.SourceReadError, max maxReq (20 + u32At src 12 + 8))

/-- Embedding of `_unpackBinaryV1Async` (lines 816–840), entered with the reader at byte
offset 12 and the first 20 bytes loaded.  Reads `contentLength`/
`contentFormat` at offsets 12/16 (the format must be `0`, `ContentFormat.JSON`);
computes `bodyLength = buffer.byteLength - byteOffset` while the reader still
sits at offset 20, i.e. before the JSON text is consumed; reads the JSON
text (the code issues no further load here, and the in-memory source faults
if the text overruns the buffer); if `bodyLength` is nonzero, records a
`bin` view starting after the JSON text with the advertised length
`bodyLength`. -/
def unpackBinaryV1 (src : List Nat) (maxReq : Nat) : UnpackResult :=
  if u32At src 16 ≠ 0 then
    .error (.UnexpectedContentFormat, maxReq)
  else if 20 + u32At src 12 ≤ src.length then
    .ok (⟨readBytes src 20 (u32At src 12),
          if src.length - 20 ≠ 0 then
            some ⟨20 + u32At src 12, src.length - 20⟩
          else none⟩,
         maxReq)
  else
    .error (.SourceReadError, maxReq)

/-- Embedding of `_unpackBinaryAsync` (lines 770–814): loads the first 20 bytes in one
request (the code's comment: magic + version + length + json length + json
format), then checks the magic, then the declared length against the
source's length, then dispatches on the version field. -/
def unpackBinary (src : List Nat) : UnpackResult :=
  if 20 ≤ src.length then
    if u32At src 0 ≠ glbMagic then
      .error (.BadMagic, 20)
    else if u32At src 8 ≠ src.length then
      .error (.LengthMismatch, 20)
    else if u32At src 4 = 1 then
      unpackBinaryV1 src 20
    else if u32At src 4 = 2 then
      unpackBinaryV2 src 20
    else
      .error (.UnsupportedVersion, 20)
  else
    .error (.SourceReadError, 20)

/-- The decode outcome, without the request-tracking component. -/
def unpackResult (src : List Nat) : Except GLBError LoaderData :=
  match unpackBinary src with
  | .ok (d, _) => .ok d
  | .error (e, _) => .error e

/-- The largest byte extent requested from the byte source during a decode
(successful or not). -/
def unpackMaxReq (src : List Nat) : Nat :=
  match unpackBinary src with
  | .ok (_, m) => m
  | .error (_, m) => m

/-- The observable behaviour of an optional `bin` view: its advertised
`byteLength` together with the outcome of reading its full range. -/
def binObs (src : List Nat) : Option BinView → Option (Nat × Except GLBError (List Nat))
  | none => none
  | some v => some (v.byteLength, v.readAsync src 0 v.byteLength)

/-- The observable behaviour of a whole decode: the parsed JSON text and the
observable behaviour of the returned `bin`. -/
def unpackObs (src : List Nat) :
    Except GLBError (List Nat × Option (Nat × Except GLBError (List Nat))) :=
  match unpackResult src with
  | .ok d => .ok (d.json, binObs src d.bin)
  | .error e => .error e

/-! ## Container builders -/

/-- The four little-endian bytes of `n`'s low 32 bits. -/
def le32 (n : Nat) : List Nat :=
  [n % 2 ^ 8, n / 2 ^ 8 % 2 ^ 8, n / 2 ^ 16 % 2 ^ 8, n / 2 ^ 24 % 2 ^ 8]

/-- A chunk of the v2 layout: its 4-byte format tag and its payload. -/
structure Chunk where
  tag : Nat
  payload : List Nat
deriving DecidableEq, Repr

/-- The wire form of one chunk: length header, tag header, payload. -/
def chunkBytes (c : Chunk) : List Nat :=
  le32 c.payload.length ++ le32 c.tag ++ c.payload

/-- The wire form of a chunk sequence. -/
def chunksBytes : List Chunk → List Nat
  | [] => []
  | c :: cs => chunkBytes c ++ chunksBytes cs

/-- A well-formed v2 container: header (magic, version 2, total length),
the JSON chunk carrying `j`, then the chunk sequence `cs`. -/
def mkGlb2 (j : List Nat) (cs : List Chunk) : List Nat :=
  le32 glbMagic ++ le32 2 ++ le32 (20 + j.length + (chunksBytes cs).length) ++
    le32 j.length ++ le32 jsonTag ++ j ++ chunksBytes cs

/-! ## Version parser -/

/-- A parsed dotted version (`major`/`minor`). -/
structure VersionPair where
  major : Nat
  minor : Nat
deriving DecidableEq, Repr

/-- The value `parseInt` yields on a run of decimal digits. -/
def digitsVal (ds : List Char) : Nat :=
  ds.foldl (fun acc c => 10 * acc + (c.toNat - 48)) 0

/-- Embedding of `_parseVersion` (lines 901–918): the strings `"1.0"` and `"1.0.1"` are
special-cased to major 1, minor 0; otherwise the leading
`(\d+)\.(\d+)` pattern is matched — a maximal nonempty run of digits, a
literal dot, a maximal nonempty run of digits — and both runs are converted
with `parseInt`; with no match the result is `none`. -/
def parseVersion (version : String) : Option VersionPair :=
  if version = "1.0" ∨ version = "1.0.1" then
    some ⟨1, 0⟩
  else
    let d1 := version.data.takeWhile Char.isDigit
    let r1 := version.data.dropWhile Char.isDigit
    if d1.isEmpty then none
    else
      match r1 with
      | c :: r2 =>
        if c = '.' then
          let d2 := r2.takeWhile Char.isDigit
          if d2.isEmpty then none
          else some ⟨digitsVal d1, digitsVal d2⟩
        else none
      | [] => none

/-- A string starts with a `major.minor` numeric pattern: a nonempty digit
run, a dot, a nonempty digit run, then anything. -/
def HasLeadingMajorMinor (s : String) : Prop :=
  ∃ a b t : List Char, s.data = a ++ '.' :: (b ++ t) ∧ a ≠ [] ∧ b ≠ [] ∧
    (∀ c ∈ a, c.isDigit = true) ∧ (∀ c ∈ b, c.isDigit = true)

example : unpackResult [] = .error .SourceReadError := rfl

/-! ## Byte-level helper lemmas -/

theorem drop_append_len {α : Type} {pre : List α} (rest : List α) (k : Nat) {n : Nat}
    (h : pre.length + k = n) : (pre ++ rest).drop n = rest.drop k := by
  subst h
  rw [← List.drop_drop, List.drop_left]

theorem u32At_of_drop {src r : List Nat} {i n : Nat} (h : src.drop i = le32 n ++ r) :
    u32At src i = n % 2 ^ 32 := by
  have hu : u32At src i =
      n % 2 ^ 8 + 2 ^ 8 * (n / 2 ^ 8 % 2 ^ 8) + 2 ^ 16 * (n / 2 ^ 16 % 2 ^ 8) +
        2 ^ 24 * (n / 2 ^ 24 % 2 ^ 8) := by
    unfold u32At
    rw [h]
    rfl
  rw [hu]
  omega

theorem chunksBytes_cons (c : Chunk) (cs : List Chunk) :
    chunksBytes (c :: cs) = le32 c.payload.length ++ (le32 c.tag ++ (c.payload ++ chunksBytes cs)) := by
  simp [chunksBytes, chunkBytes, List.append_assoc]

theorem chunksBytes_cons_length (c : Chunk) (cs : List Chunk) :
    (chunksBytes (c :: cs)).length = 8 + c.payload.length + (chunksBytes cs).length := by
  simp [chunksBytes_cons, le32]
  omega

theorem chunksBytes_nil_iff (cs : List Chunk) : chunksBytes cs = [] ↔ cs = [] := by
  cases cs with
  | nil => simp [chunksBytes]
  | cons c cs =>
    simp only [chunksBytes_cons, le32]
    simp

theorem mkGlb2_length (j : List Nat) (cs : List Chunk) :
    (mkGlb2 j cs).length = 20 + j.length + (chunksBytes cs).length := by
  simp [mkGlb2, le32]
  omega

theorem mkGlb2_u32_0 (j : List Nat) (cs : List Chunk) : u32At (mkGlb2 j cs) 0 = glbMagic := by
  have h : (mkGlb2 j cs).drop 0 =
      le32 glbMagic ++ (le32 2 ++ (le32 (20 + j.length + (chunksBytes cs).length) ++
        (le32 j.length ++ (le32 jsonTag ++ (j ++ chunksBytes cs))))) := by
    simp [mkGlb2, List.append_assoc]
  rw [u32At_of_drop h]
  norm_num [glbMagic]

theorem mkGlb2_u32_4 (j : List Nat) (cs : List Chunk) : u32At (mkGlb2 j cs) 4 = 2 := by
  have h : (mkGlb2 j cs).drop 4 =
      le32 2 ++ (le32 (20 + j.length + (chunksBytes cs).length) ++
        (le32 j.length ++ (le32 jsonTag ++ (j ++ chunksBytes cs)))) := rfl
  rw [u32At_of_drop h]
  norm_num

theorem mkGlb2_u32_8 (j : List Nat) (cs : List Chunk) :
    u32At (mkGlb2 j cs) 8 = (20 + j.length + (chunksBytes cs).length) % 2 ^ 32 := by
  have h : (mkGlb2 j cs).drop 8 =
      le32 (20 + j.length + (chunksBytes cs).length) ++
        (le32 j.length ++ (le32 jsonTag ++ (j ++ chunksBytes cs))) := rfl
  rw [u32At_of_drop h]

theorem mkGlb2_u32_12 (j : List Nat) (cs : List Chunk) :
    u32At (mkGlb2 j cs) 12 = j.length % 2 ^ 32 := by
  have h : (mkGlb2 j cs).drop 12 =
      le32 j.length ++ (le32 jsonTag ++ (j ++ chunksBytes cs)) := rfl
  rw [u32At_of_drop h]

theorem mkGlb2_u32_16 (j : List Nat) (cs : List Chunk) : u32At (mkGlb2 j cs) 16 = jsonTag := by
  have h : (mkGlb2 j cs).drop 16 = le32 jsonTag ++ (j ++ chunksBytes cs) := rfl
  rw [u32At_of_drop h]
  norm_num [jsonTag]

theorem mkGlb2_drop_20 (j : List Nat) (cs : List Chunk) :
    (mkGlb2 j cs).drop 20 = j ++ chunksBytes cs := rfl

theorem mkGlb2_json (j : List Nat) (cs : List Chunk) :
    readBytes (mkGlb2 j cs) 20 j.length = j := by
  rw [readBytes, mkGlb2_drop_20, List.take_left]

theorem mkGlb2_drop_chunks (j : List Nat) (cs : List Chunk) :
    (mkGlb2 j cs).drop (20 + j.length) = chunksBytes cs := by
  have h20 : (20 : Nat) + j.length = 20 + j.length := rfl
  calc (mkGlb2 j cs).drop (20 + j.length)
      = ((mkGlb2 j cs).drop 20).drop j.length := by
        rw [List.drop_drop, Nat.add_comm]
    _ = chunksBytes cs := by rw [mkGlb2_drop_20, List.drop_left]

/-! ## The chunk loop, characterized -/

/-- What the chunk sub-loop computes when it succeeds: each BIN-tagged chunk
overwrites the recorded view with one whose `start` is that chunk's payload
start and whose `byteLength` is that chunk's declared length; other chunks
leave it unchanged.  `offset` is the absolute offset of the chunk sequence. -/
def chunksFold (offset : Nat) (b0 : Option BinView) : List Chunk → Option BinView
  | [] => b0
  | c :: cs =>
    chunksFold (offset + 8 + c.payload.length)
      (if c.tag = binTag then some ⟨offset + 8, c.payload.length⟩ else b0) cs

theorem le_chunksBytes_length {cs : List Chunk} (h : cs ≠ []) :
    8 ≤ (chunksBytes cs).length := by
  cases cs with
  | nil => exact absurd rfl h
  | cons c cs => rw [chunksBytes_cons_length]; omega

/-- If the bytes from `offset` on are exactly the wire form of a chunk
sequence free of JSON tags, the sub-loop succeeds and records exactly the
`chunksFold` view. -/
theorem v2Loop_ok (cs : List Chunk) :
    ∀ (src : List Nat) (offset maxReq : Nat) (b0 : Option BinView),
    src.drop offset = chunksBytes cs →
    offset + (chunksBytes cs).length = src.length →
    cs ≠ [] →
    (∀ c ∈ cs, c.tag ≠ jsonTag) →
    (∀ c ∈ cs, c.tag < 2 ^ 32 ∧ c.payload.length < 2 ^ 32) →
    ∃ m, v2Loop src offset maxReq b0 = .ok (chunksFold offset b0 cs, m) := by
  induction cs with
  | nil => intro _ _ _ _ _ _ h; exact absurd rfl h
  | cons c rest ih =>
    intro src offset maxReq b0 hdrop htot _ hnoj hsz
    have hdrop1 : src.drop offset =
        le32 c.payload.length ++ (le32 c.tag ++ (c.payload ++ chunksBytes rest)) := by
      rw [hdrop, chunksBytes_cons]
    have h4 : src.drop (offset + 4) = le32 c.tag ++ (c.payload ++ chunksBytes rest) := by
      rw [← List.drop_drop, hdrop1]; rfl
    have h8 : src.drop (offset + 8) = c.payload ++ chunksBytes rest := by
      rw [← List.drop_drop, hdrop1]; rfl
    have hnext : src.drop (offset + 8 + c.payload.length) = chunksBytes rest := by
      rw [← List.drop_drop, h8, List.drop_left]
    have hcl : u32At src offset = c.payload.length := by
      rw [u32At_of_drop hdrop1, Nat.mod_eq_of_lt (hsz c (by simp)).2]
    have htag : u32At src (offset + 4) = c.tag := by
      rw [u32At_of_drop h4, Nat.mod_eq_of_lt (hsz c (by simp)).1]
    have htot1 : offset + (8 + c.payload.length + (chunksBytes rest).length) = src.length := by
      rw [← chunksBytes_cons_length]; exact htot
    by_cases hrest : rest = []
    · subst hrest
      have hend : offset + 8 + c.payload.length = src.length := by
        have h0 : (chunksBytes ([] : List Chunk)).length = 0 := rfl
        omega
      refine ⟨maxReq, ?_⟩
      rw [v2Loop, htag, hcl, if_neg (hnoj c (by simp)), if_pos hend]
      rfl
    · have hrlen : 8 ≤ (chunksBytes rest).length := le_chunksBytes_length hrest
      have hne : ¬(offset + 8 + c.payload.length = src.length) := by omega
      have hle : offset + 8 + c.payload.length + 8 ≤ src.length := by omega
      obtain ⟨m, hm⟩ := ih src (offset + 8 + c.payload.length)
        (max maxReq (offset + 8 + c.payload.length + 8))
        (if c.tag = binTag then some ⟨offset + 8, c.payload.length⟩ else b0)
        hnext (by omega) hrest
        (fun d hd => hnoj d (by simp [hd]))
        (fun d hd => hsz d (by simp [hd]))
      refine ⟨m, ?_⟩
      rw [v2Loop, htag, hcl, if_neg (hnoj c (by simp)), if_neg hne, dif_pos hle, hm]
      rfl

/-- If the chunk sequence contains a JSON-tagged chunk anywhere, the
sub-loop fails with the duplicate-JSON error. -/
theorem v2Loop_json (cs : List Chunk) :
    ∀ (src : List Nat) (offset maxReq : Nat) (b0 : Option BinView),
    src.drop offset = chunksBytes cs →
    offset + (chunksBytes cs).length = src.length →
    (∃ c ∈ cs, c.tag = jsonTag) →
    (∀ c ∈ cs, c.tag < 2 ^ 32 ∧ c.payload.length < 2 ^ 32) →
    ∃ m, v2Loop src offset maxReq b0 = .error (.DuplicateJsonChunk, m) := by
  induction cs with
  | nil => intro _ _ _ _ _ _ h _; simp at h
  | cons c rest ih =>
    intro src offset maxReq b0 hdrop htot hjson hsz
    have hdrop1 : src.drop offset =
        le32 c.payload.length ++ (le32 c.tag ++ (c.payload ++ chunksBytes rest)) := by
      rw [hdrop, chunksBytes_cons]
    have h4 : src.drop (offset + 4) = le32 c.tag ++ (c.payload ++ chunksBytes rest) := by
      rw [← List.drop_drop, hdrop1]; rfl
    have h8 : src.drop (offset + 8) = c.payload ++ chunksBytes rest := by
      rw [← List.drop_drop, hdrop1]; rfl
    have hnext : src.drop (offset + 8 + c.payload.length) = chunksBytes rest := by
      rw [← List.drop_drop, h8, List.drop_left]
    have hcl : u32At src offset = c.payload.length := by
      rw [u32At_of_drop hdrop1, Nat.mod_eq_of_lt (hsz c (by simp)).2]
    have htag : u32At src (offset + 4) = c.tag := by
      rw [u32At_of_drop h4, Nat.mod_eq_of_lt (hsz c (by simp)).1]
    have htot1 : offset + (8 + c.payload.length + (chunksBytes rest).length) = src.length := by
      rw [← chunksBytes_cons_length]; exact htot
    by_cases hc : c.tag = jsonTag
    · refine ⟨maxReq, ?_⟩
      rw [v2Loop, htag, if_pos hc]
    · have hjrest : ∃ d ∈ rest, d.tag = jsonTag := by
        obtain ⟨d, hd, hdj⟩ := hjson
        rcases List.mem_cons.mp hd with h | h
        · exact absurd (h ▸ hdj) hc
        · exact ⟨d, h, hdj⟩
      have hrest : rest ≠ [] := by
        rintro rfl
        simp at hjrest
      have hrlen : 8 ≤ (chunksBytes rest).length := le_chunksBytes_length hrest
      have hne : ¬(offset + 8 + c.payload.length = src.length) := by omega
      have hle : offset + 8 + c.payload.length + 8 ≤ src.length := by omega
      obtain ⟨m, hm⟩ := ih src (offset + 8 + c.payload.length)
        (max maxReq (offset + 8 + c.payload.length + 8))
        (if c.tag = binTag then some ⟨offset + 8, c.payload.length⟩ else b0)
        hnext (by omega) hjrest
        (fun d hd => hsz d (by simp [hd]))
      refine ⟨m, ?_⟩
      rw [v2Loop, htag, hcl, if_neg hc, if_neg hne, dif_pos hle, hm]

/-- A view whose range carries exactly the list `p` reads back `p` over its
full range. -/
theorem binObs_some {src p r : List Nat} {off : Nat}
    (h : src.drop off = p ++ r) (hb : off + p.length ≤ src.length) :
    binObs src (some ⟨off, p.length⟩) = some (p.length, .ok p) := by
  simp only [binObs, BinView.readAsync, readAsyncSource, Nat.add_zero]
  rw [if_pos hb, h, List.take_left]

/-- The observable behaviour of the view `chunksFold` records: the length
and full-range contents of the last BIN-tagged chunk's payload, or that of
the incoming view if no chunk carries the BIN tag. -/
theorem binObs_chunksFold (cs : List Chunk) :
    ∀ (src : List Nat) (offset : Nat) (b0 : Option BinView),
    src.drop offset = chunksBytes cs →
    binObs src (chunksFold offset b0 cs) =
      (match (cs.filter fun c => c.tag == binTag).getLast? with
        | some c => some (c.payload.length, .ok c.payload)
        | none => binObs src b0) := by
  induction cs with
  | nil => intro src offset b0 _; simp [chunksFold, List.filter]
  | cons c rest ih =>
    intro src offset b0 hdrop
    have hdrop1 : src.drop offset =
        le32 c.payload.length ++ (le32 c.tag ++ (c.payload ++ chunksBytes rest)) := by
      rw [hdrop, chunksBytes_cons]
    have h8 : src.drop (offset + 8) = c.payload ++ chunksBytes rest := by
      rw [← List.drop_drop, hdrop1]; rfl
    have hnext : src.drop (offset + 8 + c.payload.length) = chunksBytes rest := by
      rw [← List.drop_drop, h8, List.drop_left]
    have hub : offset + 8 + c.payload.length ≤ src.length := by
      have hlen := congrArg List.length hdrop1
      rw [List.length_drop, List.length_append, List.length_append,
        List.length_append] at hlen
      simp only [le32, List.length_cons, List.length_nil] at hlen
      omega
    have hbin : binObs src (some ⟨offset + 8, c.payload.length⟩) =
        some (c.payload.length, .ok c.payload) := binObs_some h8 hub
    have hfold : chunksFold offset b0 (c :: rest) =
        chunksFold (offset + 8 + c.payload.length)
          (if c.tag = binTag then some ⟨offset + 8, c.payload.length⟩ else b0) rest := rfl
    rw [hfold, ih src (offset + 8 + c.payload.length) _ hnext]
    by_cases hc : c.tag = binTag
    · rw [List.filter_cons_of_pos (by simp [hc])]
      cases hfr : rest.filter fun d => d.tag == binTag with
      | nil => simp [hfr, if_pos hc, hbin]
      | cons d ds =>
        obtain ⟨e, he⟩ : ∃ e, (d :: ds).getLast? = some e := by
          cases hg : (d :: ds).getLast? with
          | some e => exact ⟨e, rfl⟩
          | none => simp at hg
        simp [hfr, he]
    · rw [List.filter_cons_of_neg (by simp [hc])]
      rw [if_neg hc]

/-- Unpacking a well-formed v2 container whose chunk sequence carries no
JSON tag succeeds, returns the JSON chunk's text, and records the
`chunksFold` view of the chunk sequence. -/
theorem unpackBinary_mkGlb2 (j : List Nat) (cs : List Chunk)
    (hlen : (mkGlb2 j cs).length < 2 ^ 32)
    (hnoj : ∀ c ∈ cs, c.tag ≠ jsonTag)
    (hsz : ∀ c ∈ cs, c.tag < 2 ^ 32 ∧ c.payload.length < 2 ^ 32) :
    ∃ m, unpackBinary (mkGlb2 j cs) =
      .ok (⟨j, chunksFold (20 + j.length) none cs⟩, m) := by
  have hL := mkGlb2_length j cs
  have h20 : 20 ≤ (mkGlb2 j cs).length := by omega
  have hjl : j.length < 2 ^ 32 := by omega
  have hmod : (20 + j.length + (chunksBytes cs).length) % 2 ^ 32
      = (mkGlb2 j cs).length := by
    rw [hL]; exact Nat.mod_eq_of_lt (by omega)
  rw [unpackBinary, if_pos h20, mkGlb2_u32_0, if_neg (by simp), mkGlb2_u32_8, hmod,
    if_neg (by simp), mkGlb2_u32_4, if_neg (by norm_num), if_pos rfl]
  rw [unpackBinaryV2, mkGlb2_u32_16, if_neg (by simp), mkGlb2_u32_12,
    Nat.mod_eq_of_lt hjl]
  by_cases hcs : cs = []
  · subst hcs
    have h0 : (chunksBytes ([] : List Chunk)).length = 0 := rfl
    have hend : 20 + j.length = (mkGlb2 j ([] : List Chunk)).length := by omega
    rw [if_pos hend, if_pos (le_of_eq hend), mkGlb2_json]
    exact ⟨max 20 (20 + j.length), rfl⟩
  · have hcb : 8 ≤ (chunksBytes cs).length := le_chunksBytes_length hcs
    have hne : ¬(20 + j.length = (mkGlb2 j cs).length) := by omega
    have hle : 20 + j.length + 8 ≤ (mkGlb2 j cs).length := by omega
    obtain ⟨m, hm⟩ := v2Loop_ok cs (mkGlb2 j cs) (20 + j.length)
      (max 20 (20 + j.length + 8)) none (mkGlb2_drop_chunks j cs) (by omega) hcs hnoj hsz
    rw [if_neg hne, if_pos hle, hm, mkGlb2_json]
    exact ⟨m, rfl⟩

/-- The observable decode of a well-formed v2 container with a JSON-tag-free
chunk sequence: the JSON text, and the last BIN-tagged chunk's length and
payload (or no `bin` when no chunk carries the BIN tag). -/
theorem unpackObs_mkGlb2 (j : List Nat) (cs : List Chunk)
    (hlen : (mkGlb2 j cs).length < 2 ^ 32)
    (hnoj : ∀ c ∈ cs, c.tag ≠ jsonTag)
    (hsz : ∀ c ∈ cs, c.tag < 2 ^ 32 ∧ c.payload.length < 2 ^ 32) :
    unpackObs (mkGlb2 j cs) =
      .ok (j, match (cs.filter fun c => c.tag == binTag).getLast? with
        | some c => some (c.payload.length, .ok c.payload)
        | none => none) := by
  obtain ⟨m, hm⟩ := unpackBinary_mkGlb2 j cs hlen hnoj hsz
  have hres : unpackResult (mkGlb2 j cs) = .ok ⟨j, chunksFold (20 + j.length) none cs⟩ := by
    rw [unpackResult, hm]
  have hobs := binObs_chunksFold cs (mkGlb2 j cs) (20 + j.length) none
    (mkGlb2_drop_chunks j cs)
  rw [unpackObs, hres]
  cases hgl : (cs.filter fun c => c.tag == binTag).getLast? with
  | some c => simp only [hgl] at hobs ⊢; rw [hobs]
  | none => simp only [hgl] at hobs ⊢; rw [hobs]; rfl

/-- The early-exit path: a v2 container whose JSON chunk reaches exactly the
end of the source returns the parsed text, no `bin`, and a request extent
of exactly the JSON chunk's end (the container's total length). -/
theorem unpackBinary_mkGlb2_nil (j : List Nat)
    (hlen : (mkGlb2 j []).length < 2 ^ 32) :
    unpackBinary (mkGlb2 j []) = .ok (⟨j, none⟩, 20 + j.length) := by
  have hL := mkGlb2_length j ([] : List Chunk)
  have h0 : (chunksBytes ([] : List Chunk)).length = 0 := rfl
  have h20 : 20 ≤ (mkGlb2 j []).length := by omega
  have hjl : j.length < 2 ^ 32 := by omega
  have hmod : (20 + j.length + (chunksBytes ([] : List Chunk)).length) % 2 ^ 32
      = (mkGlb2 j ([] : List Chunk)).length := by
    rw [hL]; exact Nat.mod_eq_of_lt (by omega)
  have hend : 20 + j.length = (mkGlb2 j ([] : List Chunk)).length := by omega
  rw [unpackBinary, if_pos h20, mkGlb2_u32_0, if_neg (by simp), mkGlb2_u32_8, hmod,
    if_neg (by simp), mkGlb2_u32_4, if_neg (by norm_num), if_pos rfl]
  rw [unpackBinaryV2, mkGlb2_u32_16, if_neg (by simp), mkGlb2_u32_12,
    Nat.mod_eq_of_lt hjl, if_pos hend, if_pos (le_of_eq hend), mkGlb2_json,
    Nat.max_eq_right (by omega : 20 ≤ 20 + j.length)]

/-- Reduction of a v2 container with a nonempty chunk sequence to its chunk
sub-loop. -/
theorem unpackBinary_mkGlb2_toLoop (j : List Nat) (cs : List Chunk)
    (hlen : (mkGlb2 j cs).length < 2 ^ 32) (hcs : cs ≠ []) :
    unpackBinary (mkGlb2 j cs) =
      match v2Loop (mkGlb2 j cs) (20 + j.length) (max 20 (20 + j.length + 8)) none with
      | .ok (bin, m) => .ok (⟨j, bin⟩, m)
      | .error e => .error e := by
  have hL := mkGlb2_length j cs
  have hcb : 8 ≤ (chunksBytes cs).length := le_chunksBytes_length hcs
  have h20 : 20 ≤ (mkGlb2 j cs).length := by omega
  have hjl : j.length < 2 ^ 32 := by omega
  have hmod : (20 + j.length + (chunksBytes cs).length) % 2 ^ 32
      = (mkGlb2 j cs).length := by
    rw [hL]; exact Nat.mod_eq_of_lt (by omega)
  have hne : ¬(20 + j.length = (mkGlb2 j cs).length) := by omega
  have hle : 20 + j.length + 8 ≤ (mkGlb2 j cs).length := by omega
  rw [unpackBinary, if_pos h20, mkGlb2_u32_0, if_neg (by simp), mkGlb2_u32_8, hmod,
    if_neg (by simp), mkGlb2_u32_4, if_neg (by norm_num), if_pos rfl]
  rw [unpackBinaryV2, mkGlb2_u32_16, if_neg (by simp), mkGlb2_u32_12,
    Nat.mod_eq_of_lt hjl, if_neg hne, if_pos hle, mkGlb2_json]

/-- Dropping chunks only shortens the wire form. -/
theorem chunksBytes_filter_le (p : Chunk → Bool) (cs : List Chunk) :
    (chunksBytes (cs.filter p)).length ≤ (chunksBytes cs).length := by
  induction cs with
  | nil => simp [List.filter]
  | cons c rest ih =>
    by_cases hc : p c
    · rw [List.filter_cons_of_pos hc, chunksBytes_cons_length, chunksBytes_cons_length]
      omega
    · rw [List.filter_cons_of_neg (by simp [hc]), chunksBytes_cons_length]
      omega

/-! ## Claim C1 — legacy (v1) trailing-body view -/

/-- A legacy (v1) container: magic, version 1, declared length 28 (= actual),
contentLength 2, contentFormat 0 (JSON), a 2-byte JSON text, and 6 trailing
body bytes. -/
def v1Container : List Nat :=
  le32 glbMagic ++ le32 1 ++ le32 28 ++ le32 2 ++ le32 0 ++ [123, 125] ++ [1, 2, 3, 4, 5, 6]

/-- C1: for a legacy container with JSON text of N = 2 bytes and M = 6
trailing bytes, the claim says the returned bin view has byteLength M = 6.
The code computes `bodyLength = buffer.byteLength - byteOffset` while the
reader still sits at offset 20, before the JSON text is consumed, so it
returns a view of advertised length N + M = 8 based after the JSON text —
whose full range overruns the 28-byte source (its full-range read fails). -/
theorem v1_bodyLength_includes_json :
    unpackResult v1Container = .ok ⟨[123, 125], some ⟨22, 8⟩⟩ ∧
    v1Container.length = 28 ∧
    binObs v1Container (some ⟨22, 8⟩) = some (8, .error .SourceReadError) :=
  ⟨rfl, rfl, rfl⟩

/-! ## Claim C2 — chunked JSON + BIN container -/

/-- C2: for every well-formed chunked container with a JSON chunk and a
BIN-tagged chunk, unpack returns a bin whose byteLength equals the BIN
chunk's declared length and whose reads are based at the first byte of the
BIN payload (absolute offset 28 + N), so reading its full range yields
exactly the bytes that followed the BIN chunk header. -/
theorem chunked_json_bin_view (j b : List Nat)
    (hlen : (mkGlb2 j [⟨binTag, b⟩]).length < 2 ^ 32) :
    unpackResult (mkGlb2 j [⟨binTag, b⟩]) =
      .ok ⟨j, some ⟨28 + j.length, b.length⟩⟩ ∧
    BinView.readAsync (mkGlb2 j [⟨binTag, b⟩]) ⟨28 + j.length, b.length⟩ 0 b.length =
      .ok b := by
  have hL := mkGlb2_length j [⟨binTag, b⟩]
  have hcb : (chunksBytes [(⟨binTag, b⟩ : Chunk)]).length = 8 + b.length := by
    rw [chunksBytes_cons_length]; rfl
  have hnoj : ∀ c ∈ [(⟨binTag, b⟩ : Chunk)], c.tag ≠ jsonTag := by
    intro c hc
    simp only [List.mem_singleton] at hc
    subst hc
    norm_num [binTag, jsonTag]
  have hsz : ∀ c ∈ [(⟨binTag, b⟩ : Chunk)], c.tag < 2 ^ 32 ∧ c.payload.length < 2 ^ 32 := by
    intro c hc
    simp only [List.mem_singleton] at hc
    subst hc
    refine ⟨by norm_num [binTag], ?_⟩
    show b.length < 2 ^ 32
    omega
  obtain ⟨m, hm⟩ := unpackBinary_mkGlb2 j [⟨binTag, b⟩] hlen hnoj hsz
  have h28 : 20 + j.length + 8 = 28 + j.length := by omega
  have hfold : chunksFold (20 + j.length) none [(⟨binTag, b⟩ : Chunk)] =
      some ⟨28 + j.length, b.length⟩ := by
    show (if binTag = binTag then some (⟨20 + j.length + 8, b.length⟩ : BinView)
          else none) = some ⟨28 + j.length, b.length⟩
    rw [if_pos rfl, h28]
  have hdropb : (mkGlb2 j [⟨binTag, b⟩]).drop (28 + j.length) = b := by
    have h1 : (28 + j.length) = 20 + j.length + 8 := by omega
    rw [h1, ← List.drop_drop, mkGlb2_drop_chunks, chunksBytes_cons]
    show b ++ chunksBytes [] = b
    simp [chunksBytes]
  refine ⟨?_, ?_⟩
  · rw [unpackResult, hm, hfold]
  · show readAsyncSource (mkGlb2 j [⟨binTag, b⟩]) (28 + j.length + 0) b.length = .ok b
    rw [Nat.add_zero, readAsyncSource, if_pos (by omega), hdropb, List.take_length]

/-! ## Claim C3 — a second JSON-tagged chunk always fails -/

/-- C3: a chunked container whose chunk sequence after the first (JSON)
chunk contains a JSON-tagged chunk anywhere fails with the duplicate-JSON
error and yields no LoaderData. -/
theorem duplicate_json_chunk_fails (j : List Nat) (cs : List Chunk)
    (hlen : (mkGlb2 j cs).length < 2 ^ 32)
    (hsz : ∀ c ∈ cs, c.tag < 2 ^ 32 ∧ c.payload.length < 2 ^ 32)
    (hjson : ∃ c ∈ cs, c.tag = jsonTag) :
    unpackResult (mkGlb2 j cs) = .error .DuplicateJsonChunk := by
  have hcs : cs ≠ [] := by rintro rfl; simp at hjson
  have hred := unpackBinary_mkGlb2_toLoop j cs hlen hcs
  have hcb : 8 ≤ (chunksBytes cs).length := le_chunksBytes_length hcs
  have hL := mkGlb2_length j cs
  obtain ⟨m, hm⟩ := v2Loop_json cs (mkGlb2 j cs) (20 + j.length)
    (max 20 (20 + j.length + 8)) none (mkGlb2_drop_chunks j cs) (by omega) hjson hsz
  rw [unpackResult, hred, hm]

/-! ## Claim C4 — JSON chunk reaching exactly the end of the source -/

/-- C4: a chunked container whose JSON chunk reaches exactly the end of the
source returns the parsed text with no bin, and the decode's request extent
is exactly the container's length — no further chunk header (which would
require 8 bytes past the end) is ever requested. -/
theorem json_chunk_at_end (j : List Nat) (hlen : (mkGlb2 j []).length < 2 ^ 32) :
    unpackResult (mkGlb2 j []) = .ok ⟨j, none⟩ ∧
    unpackMaxReq (mkGlb2 j []) = 20 + j.length ∧
    20 + j.length = (mkGlb2 j []).length := by
  have h := unpackBinary_mkGlb2_nil j hlen
  have hL := mkGlb2_length j ([] : List Chunk)
  have h0 : (chunksBytes ([] : List Chunk)).length = 0 := rfl
  refine ⟨?_, ?_, by omega⟩
  · rw [unpackResult, h]
  · rw [unpackMaxReq, h]

/-! ## Claim C5 — unsupported container version -/

/-- A 20-byte container with valid magic, declared length 20 (= actual) and
format-version 3. -/
def v3Container : List Nat := le32 glbMagic ++ le32 3 ++ le32 20 ++ le32 0 ++ le32 0

/-- C5 counterexample: on a valid-magic, valid-length container with
format-version 3 the decode does fail with the unsupported-version error,
but the upfront header load requests 20 bytes, so bytes beyond the 12-byte
header are requested, contrary to the claim. -/
theorem v3_requests_twenty_bytes :
    unpackResult v3Container = .error .UnsupportedVersion ∧
    unpackMaxReq v3Container = 20 ∧ ¬(unpackMaxReq v3Container ≤ 12) :=
  ⟨rfl, rfl, by decide⟩

/-- C5 amended: for every container of at least 20 bytes with valid magic
and matching declared length whose format-version is neither 1 nor 2,
unpack fails with the unsupported-version error and the request extent is
exactly 20 bytes (the fixed upfront load), not 12. -/
theorem unsupported_version_fails (src : List Nat) (h20 : 20 ≤ src.length)
    (hmagic : u32At src 0 = glbMagic) (hdecl : u32At src 8 = src.length)
    (hv1 : u32At src 4 ≠ 1) (hv2 : u32At src 4 ≠ 2) :
    unpackBinary src = .error (.UnsupportedVersion, 20) := by
  rw [unpackBinary, if_pos h20, hmagic, if_neg (by simp), hdecl, if_neg (by simp),
    if_neg hv1, if_neg hv2]

theorem unsupported_version_fails_witness :
    unpackBinary (le32 glbMagic ++ le32 5 ++ le32 20 ++ le32 0 ++ le32 0) =
      .error (.UnsupportedVersion, 20) :=
  unsupported_version_fails _ (by decide) (by decide) (by decide) (by decide) (by decide)

/-! ## Claim C6 — bad magic -/

/-- A 20-byte container whose leading 4 bytes are not the magic. -/
def badMagicContainer : List Nat := le32 7 ++ le32 2 ++ le32 20 ++ le32 0 ++ le32 0

/-- C6 counterexample: a container with corrupted magic does fail with the
bad-magic error, but the decode's single upfront load already requested 20
bytes, so bytes beyond the first 4 are requested, contrary to the claim. -/
theorem bad_magic_requests_twenty_bytes :
    unpackResult badMagicContainer = .error .BadMagic ∧
    unpackMaxReq badMagicContainer = 20 ∧ ¬(unpackMaxReq badMagicContainer ≤ 4) :=
  ⟨rfl, rfl, by decide⟩

/-- C6 amended: for every source of at least 20 bytes whose leading 4 bytes
differ from the magic constant, unpack fails with the bad-magic error
before any header field is interpreted, with request extent exactly the 20
bytes of the upfront load (so bytes 4..20 are requested as well). -/
theorem bad_magic_fails (src : List Nat) (h20 : 20 ≤ src.length)
    (hmagic : u32At src 0 ≠ glbMagic) :
    unpackBinary src = .error (.BadMagic, 20) := by
  rw [unpackBinary, if_pos h20, if_pos hmagic]

theorem bad_magic_fails_witness :
    unpackBinary (le32 1 ++ le32 2 ++ le32 20 ++ le32 0 ++ le32 0) =
      .error (.BadMagic, 20) :=
  bad_magic_fails _ (by decide) (by decide)

/-! ## Claim C7 — declared length mismatch -/

/-- A 12-byte source (header only) with valid magic, version 2, and a
declared length of 999, which differs from the actual length 12. -/
def shortContainer : List Nat := le32 glbMagic ++ le32 2 ++ le32 999

/-- C7 counterexample: on a container with valid magic whose declared
length differs from the source's length, but which is shorter than the 20
bytes the upfront load requests, the decode fails with a source-read error
(the in-memory byte source faults on the out-of-range request), not with
the length-mismatch error the claim demands for every such container. -/
theorem short_container_read_error :
    u32At shortContainer 0 = glbMagic ∧
    shortContainer.length = 12 ∧
    u32At shortContainer 8 ≠ shortContainer.length ∧
    unpackResult shortContainer = .error .SourceReadError ∧
    GLBError.SourceReadError ≠ GLBError.LengthMismatch :=
  ⟨rfl, rfl, by decide, rfl, by decide⟩

/-- C7 amended: for every source of at least 20 bytes (enough for the
upfront load) with valid magic whose declared length field differs from
the source's length, unpack fails with the length-mismatch error.  (The
unknown-length proviso of the claim does not arise: the reader's buffer
always reports a numeric byteLength.) -/
theorem length_mismatch_fails (src : List Nat) (h20 : 20 ≤ src.length)
    (hmagic : u32At src 0 = glbMagic) (hne : u32At src 8 ≠ src.length) :
    unpackBinary src = .error (.LengthMismatch, 20) := by
  rw [unpackBinary, if_pos h20, hmagic, if_neg (by simp), if_pos hne]

theorem length_mismatch_fails_witness :
    unpackBinary (le32 glbMagic ++ le32 2 ++ le32 99 ++ le32 0 ++ le32 0) =
      .error (.LengthMismatch, 20) :=
  length_mismatch_fails _ (by decide) (by decide) (by decide)

/-! ## Claim C8 — unrecognized chunk tags are skipped -/

/-- C8: chunks carrying tags other than JSON and BIN are skipped without
affecting the decode: the observable result (parsed text, bin length and
bin full-range contents) equals that of the same container with the
unrecognized chunks removed (only the BIN-tagged chunks kept). -/
theorem unknown_chunks_skipped (j : List Nat) (cs : List Chunk)
    (hlen : (mkGlb2 j cs).length < 2 ^ 32)
    (hnoj : ∀ c ∈ cs, c.tag ≠ jsonTag)
    (hsz : ∀ c ∈ cs, c.tag < 2 ^ 32 ∧ c.payload.length < 2 ^ 32) :
    unpackObs (mkGlb2 j cs) =
      unpackObs (mkGlb2 j (cs.filter fun c => c.tag == binTag)) := by
  have hlen2 : (mkGlb2 j (cs.filter fun c => c.tag == binTag)).length < 2 ^ 32 := by
    have := chunksBytes_filter_le (fun c => c.tag == binTag) cs
    rw [mkGlb2_length] at hlen ⊢
    omega
  rw [unpackObs_mkGlb2 j cs hlen hnoj hsz,
    unpackObs_mkGlb2 j _ hlen2
      (fun c hc => hnoj c (List.mem_of_mem_filter hc))
      (fun c hc => hsz c (List.mem_of_mem_filter hc)),
    List.filter_filter]
  simp

/-! ## Claim C10 — multiple BIN chunks: last one wins -/

/-- C10: a chunked container with more than one BIN-tagged chunk does not
fail; each BIN chunk overwrites the recorded view, so the observable bin is
the last BIN-tagged chunk's declared length and payload. -/
theorem multiple_bin_last_wins (j : List Nat) (cs : List Chunk) (c : Chunk)
    (hlen : (mkGlb2 j cs).length < 2 ^ 32)
    (hnoj : ∀ d ∈ cs, d.tag ≠ jsonTag)
    (hsz : ∀ d ∈ cs, d.tag < 2 ^ 32 ∧ d.payload.length < 2 ^ 32)
    (_hmulti : 2 ≤ (cs.filter fun d => d.tag == binTag).length)
    (hlast : (cs.filter fun d => d.tag == binTag).getLast? = some c) :
    unpackObs (mkGlb2 j cs) = .ok (j, some (c.payload.length, .ok c.payload)) := by
  rw [unpackObs_mkGlb2 j cs hlen hnoj hsz, hlast]

theorem multiple_bin_last_wins_witness :
    unpackObs (mkGlb2 [123] [⟨binTag, [1]⟩, ⟨binTag, [2, 3]⟩]) =
      .ok ([123], some (2, .ok [2, 3])) :=
  multiple_bin_last_wins [123] [⟨binTag, [1]⟩, ⟨binTag, [2, 3]⟩] ⟨binTag, [2, 3]⟩
    (by decide) (by decide) (by decide) (by decide) (by decide)

theorem chunked_json_bin_view_witness :
    unpackResult (mkGlb2 [123, 125] [⟨binTag, [9, 8]⟩]) =
      .ok ⟨[123, 125], some ⟨30, 2⟩⟩ ∧
    BinView.readAsync (mkGlb2 [123, 125] [⟨binTag, [9, 8]⟩]) ⟨30, 2⟩ 0 2 = .ok [9, 8] :=
  chunked_json_bin_view [123, 125] [9, 8] (by decide)

theorem duplicate_json_chunk_fails_witness :
    unpackResult (mkGlb2 [123, 125] [⟨jsonTag, [5]⟩]) = .error .DuplicateJsonChunk :=
  duplicate_json_chunk_fails [123, 125] [⟨jsonTag, [5]⟩] (by decide) (by decide)
    ⟨⟨jsonTag, [5]⟩, by decide, rfl⟩

theorem json_chunk_at_end_witness :
    unpackResult (mkGlb2 [123, 125] []) = .ok ⟨[123, 125], none⟩ ∧
    unpackMaxReq (mkGlb2 [123, 125] []) = 22 ∧
    22 = (mkGlb2 [123, 125] []).length :=
  json_chunk_at_end [123, 125] (by decide)

theorem unknown_chunks_skipped_witness :
    unpackObs (mkGlb2 [123] [⟨1, [4, 4]⟩, ⟨binTag, [9]⟩, ⟨2, []⟩]) =
      unpackObs (mkGlb2 [123]
        ([⟨1, [4, 4]⟩, ⟨binTag, [9]⟩, ⟨2, []⟩].filter fun c => c.tag == binTag)) :=
  unknown_chunks_skipped [123] [⟨1, [4, 4]⟩, ⟨binTag, [9]⟩, ⟨2, []⟩]
    (by decide) (by decide) (by decide)

/-! ## Claim C9 — version parser -/

theorem takeWhile_dropWhile_append {p : Char → Bool} {a : List Char} {y : Char} {r : List Char}
    (ha : ∀ c ∈ a, p c = true) (hy : p y = false) :
    (a ++ y :: r).takeWhile p = a ∧ (a ++ y :: r).dropWhile p = y :: r := by
  induction a with
  | nil => simp [List.takeWhile_cons, List.dropWhile_cons, hy]
  | cons x xs ih =>
    have hx : p x = true := ha x (by simp)
    have ih2 := ih (fun c hc => ha c (by simp [hc]))
    simp [List.takeWhile_cons, List.dropWhile_cons, hx, ih2.1, ih2.2]

theorem takeWhile_all {p : Char → Bool} {b : List Char} (hb : ∀ c ∈ b, p c = true) :
    b.takeWhile p = b := by
  induction b with
  | nil => rfl
  | cons x xs ih =>
    simp [List.takeWhile_cons, hb x (by simp), ih fun c hc => hb c (by simp [hc])]

theorem takeWhile_head_stop {p : Char → Bool} {b t : List Char}
    (hb : ∀ c ∈ b, p c = true) (ht : ∀ c, t.head? = some c → p c = false) :
    (b ++ t).takeWhile p = b := by
  cases t with
  | nil => rw [List.append_nil]; exact takeWhile_all hb
  | cons y t2 => exact (takeWhile_dropWhile_append hb (ht y rfl)).1

/-- On the two special-cased strings, a leading major.minor decomposition is
forced to extract major 1, minor 0. -/
theorem special_decomp {a b t : List Char}
    (ha : a ≠ []) (hb : b ≠ [])
    (hda : ∀ c ∈ a, c.isDigit = true) (hdb : ∀ c ∈ b, c.isDigit = true)
    (hd : a ++ '.' :: (b ++ t) = ['1', '.', '0'] ∨
          a ++ '.' :: (b ++ t) = ['1', '.', '0', '.', '1']) :
    digitsVal a = 1 ∧ digitsVal b = 0 := by
  cases a with
  | nil => exact absurd rfl ha
  | cons x a2 =>
    rcases hd with hd | hd
    · rw [List.cons_append] at hd
      injection hd with hx hd2
      cases a2 with
      | cons z a3 =>
        rw [List.cons_append] at hd2
        injection hd2 with hz _
        have hzd := hda z (by simp)
        rw [hz] at hzd
        exact absurd hzd (by decide)
      | nil =>
        rw [List.nil_append] at hd2
        injection hd2 with _ hd3
        cases b with
        | nil => exact absurd rfl hb
        | cons y b2 =>
          rw [List.cons_append] at hd3
          injection hd3 with hy hd4
          obtain ⟨hb2, ht0⟩ := List.append_eq_nil.mp hd4
          subst hx hy hb2
          decide
    · rw [List.cons_append] at hd
      injection hd with hx hd2
      cases a2 with
      | cons z a3 =>
        rw [List.cons_append] at hd2
        injection hd2 with hz _
        have hzd := hda z (by simp)
        rw [hz] at hzd
        exact absurd hzd (by decide)
      | nil =>
        rw [List.nil_append] at hd2
        injection hd2 with _ hd3
        cases b with
        | nil => exact absurd rfl hb
        | cons y b2 =>
          rw [List.cons_append] at hd3
          injection hd3 with hy hd4
          cases b2 with
          | cons w b3 =>
            rw [List.cons_append] at hd4
            injection hd4 with hw _
            have hwd := hdb w (by simp)
            rw [hw] at hwd
            exact absurd hwd (by decide)
          | nil =>
            subst hx hy
            decide

/-- The parser on an explicitly decomposed input: a maximal nonempty digit
run, a dot, a nonempty digit run not extendable into `t`. -/
theorem parseVersion_pattern (a b t : List Char) (ha : a ≠ []) (hb : b ≠ [])
    (hda : ∀ c ∈ a, c.isDigit = true) (hdb : ∀ c ∈ b, c.isDigit = true)
    (ht : ∀ c, t.head? = some c → c.isDigit = false) :
    parseVersion ⟨a ++ '.' :: (b ++ t)⟩ = some ⟨digitsVal a, digitsVal b⟩ := by
  have hdot : ('.' : Char).isDigit = false := by decide
  obtain ⟨htw, hdw⟩ := takeWhile_dropWhile_append hda hdot (r := b ++ t)
  have htw2 : (b ++ t).takeWhile Char.isDigit = b := takeWhile_head_stop hdb ht
  by_cases hsp : (⟨a ++ '.' :: (b ++ t)⟩ : String) = "1.0" ∨
      (⟨a ++ '.' :: (b ++ t)⟩ : String) = "1.0.1"
  · have hd : a ++ '.' :: (b ++ t) = ['1', '.', '0'] ∨
        a ++ '.' :: (b ++ t) = ['1', '.', '0', '.', '1'] := by
      rcases hsp with h | h
      · exact Or.inl (congrArg String.data h)
      · exact Or.inr (congrArg String.data h)
    obtain ⟨h1, h2⟩ := special_decomp ha hb hda hdb hd
    rw [parseVersion, if_pos hsp, h1, h2]
  · have hae : a.isEmpty = false := by
      cases a with | nil => exact absurd rfl ha | cons _ _ => rfl
    have hbe : b.isEmpty = false := by
      cases b with | nil => exact absurd rfl hb | cons _ _ => rfl
    simp only [parseVersion, if_neg hsp, htw, hdw, hae, Bool.false_eq_true, if_false,
      htw2, hbe, if_pos rfl]
    simp

/-- C9: the version parser maps "1.0" and "1.0.1" to major 1, minor 0 and
"2.0" to major 2, minor 0; it succeeds exactly on strings with a leading
major.minor numeric pattern, extracting both runs of digits (never
crashing), and returns none otherwise, e.g. on "garbage". -/
theorem version_parser_contract :
    parseVersion "1.0" = some ⟨1, 0⟩ ∧
    parseVersion "1.0.1" = some ⟨1, 0⟩ ∧
    parseVersion "2.0" = some ⟨2, 0⟩ ∧
    parseVersion "garbage" = none ∧
    (∀ s : String, (parseVersion s).isSome = true ↔ HasLeadingMajorMinor s) ∧
    (∀ a b t : List Char, a ≠ [] → b ≠ [] →
      (∀ c ∈ a, c.isDigit = true) → (∀ c ∈ b, c.isDigit = true) →
      (∀ c, t.head? = some c → c.isDigit = false) →
      parseVersion ⟨a ++ '.' :: (b ++ t)⟩ = some ⟨digitsVal a, digitsVal b⟩) := by
  refine ⟨rfl, rfl, rfl, rfl, ?_, parseVersion_pattern⟩
  intro s
  constructor
  · intro hsome
    by_cases hsp : s = "1.0" ∨ s = "1.0.1"
    · rcases hsp with rfl | rfl
      · exact ⟨['1'], ['0'], [], rfl, by simp, by simp, by decide, by decide⟩
      · exact ⟨['1'], ['0'], ['.', '1'], rfl, by simp, by simp, by decide, by decide⟩
    · simp only [parseVersion, if_neg hsp] at hsome
      by_cases h1 : s.data.takeWhile Char.isDigit = []
      · simp [h1] at hsome
      · have hae : (s.data.takeWhile Char.isDigit).isEmpty = false := by
          cases hh : s.data.takeWhile Char.isDigit with
          | nil => exact absurd hh h1
          | cons _ _ => rfl
        cases hdw : s.data.dropWhile Char.isDigit with
        | nil => simp [hae, hdw] at hsome
        | cons y r2 =>
          simp only [hae, hdw, Bool.false_eq_true, if_false] at hsome
          by_cases hy : y = '.'
          · subst hy
            by_cases h2 : r2.takeWhile Char.isDigit = []
            · simp [h2] at hsome
            · have hsplit : s.data = s.data.takeWhile Char.isDigit ++ '.' ::
                  (r2.takeWhile Char.isDigit ++ r2.dropWhile Char.isDigit) := by
                conv_lhs => rw [← List.takeWhile_append_dropWhile Char.isDigit s.data]
                rw [hdw, List.takeWhile_append_dropWhile]
              exact ⟨_, _, _, hsplit, h1, h2, fun c hc => List.mem_takeWhile_imp hc,
                fun c hc => List.mem_takeWhile_imp hc⟩
          · simp [hy] at hsome
  · rintro ⟨a, b, t, hdata, ha, hb, hda, hdb⟩
    by_cases hsp : s = "1.0" ∨ s = "1.0.1"
    · rcases hsp with rfl | rfl <;> rfl
    · have hdot : ('.' : Char).isDigit = false := by decide
      obtain ⟨htw, hdw⟩ := takeWhile_dropWhile_append hda hdot (r := b ++ t)
      have htw1 : s.data.takeWhile Char.isDigit = a := by rw [hdata]; exact htw
      have hdw1 : s.data.dropWhile Char.isDigit = '.' :: (b ++ t) := by rw [hdata]; exact hdw
      have hae : a.isEmpty = false := by
        cases a with | nil => exact absurd rfl ha | cons _ _ => rfl
      have hbne : ((b ++ t).takeWhile Char.isDigit).isEmpty = false := by
        cases b with
        | nil => exact absurd rfl hb
        | cons y b2 =>
          rw [List.cons_append, List.takeWhile_cons, hdb y (by simp)]
          rfl
      simp only [parseVersion, if_neg hsp, htw1, hdw1, hae, Bool.false_eq_true, if_false,
        hbne, if_pos rfl]
      simp

theorem version_parser_contract_witness :
    parseVersion "4.2x" = some ⟨4, 2⟩ :=
  version_parser_contract.2.2.2.2.2 ['4'] ['2'] ['x'] (by decide) (by decide)
    (by decide) (by decide)
    (by intro c hc; injection hc with h; exact h ▸ (by decide))
